import Mathlib

/-!
Shallow embedding of the FPL grade extractor (src/main.rs) over `List Char`.

The Rust program is built from nom parser combinators over `&str`.  Each
parser is embedded as a function `List Char → Option (List Char × α)`
returning the remaining input together with the parsed value, mirroring
nom's `IResult<&str, T>` (`Err` becomes `none`).  Case-insensitive
comparison and lowercasing are modelled for the ASCII range, which covers
every pattern literal occurring in the program.
-/

namespace FplSpec

/-- Input of the matchers: a string as a list of characters. -/
abbrev Input := List Char

/-- ASCII lowercasing of one character, modelling the per-character
lowercase comparison used by the program (`tag_no_case`, `to_lowercase`). -/
def to_lower (c : Char) : Char :=
  match c with
  | 'A' => 'a' | 'B' => 'b' | 'C' => 'c' | 'D' => 'd' | 'E' => 'e'
  | 'F' => 'f' | 'G' => 'g' | 'H' => 'h' | 'I' => 'i' | 'J' => 'j'
  | 'K' => 'k' | 'L' => 'l' | 'M' => 'm' | 'N' => 'n' | 'O' => 'o'
  | 'P' => 'p' | 'Q' => 'q' | 'R' => 'r' | 'S' => 's' | 'T' => 't'
  | 'U' => 'u' | 'V' => 'v' | 'W' => 'w' | 'X' => 'x' | 'Y' => 'y'
  | 'Z' => 'z'
  | c => c

/-- nom `multispace0`: consumes zero or more of space, tab, carriage return
and newline (exactly the characters of `Char.isWhitespace`).  Never fails;
returns (remaining, consumed). -/
def multispace0 (s : Input) : Input × Input :=
  (s.dropWhile Char.isWhitespace, s.takeWhile Char.isWhitespace)

/-- nom `digit1`: one or more ASCII digits (maximal run). -/
def digit1 (s : Input) : Option (Input × Input) :=
  let run := s.takeWhile Char.isDigit
  if run = [] then none else some (s.dropWhile Char.isDigit, run)

/-- nom `alpha1`: one or more ASCII letters (maximal run). -/
def alpha1 (s : Input) : Option (Input × Input) :=
  let run := s.takeWhile Char.isAlpha
  if run = [] then none else some (s.dropWhile Char.isAlpha, run)

/-- Combinator `alphas(count, s)`: `verify(alpha1, |s| s.len() == count)`. -/
def alphas (count : Nat) (s : Input) : Option (Input × Input) :=
  match alpha1 s with
  | some (rest, run) => if run.length = count then some (rest, run) else none
  | none => none

/-- Combinator `max_digits(count, s)`: `verify(digit1, |s| s.len() <= count)`. -/
def max_digits (count : Nat) (s : Input) : Option (Input × Input) :=
  match digit1 s with
  | some (rest, run) => if run.length ≤ count then some (rest, run) else none
  | none => none

/-- nom `tag`: exact (case-sensitive) literal match. -/
def tag (t : Input) (s : Input) : Option (Input × Input) :=
  if s.take t.length = t then some (s.drop t.length, s.take t.length) else none

/-- nom `tag_no_case`: literal match up to (ASCII) case. -/
def tag_no_case (t : Input) (s : Input) : Option (Input × Input) :=
  if (s.take t.length).map to_lower = t.map to_lower then
    some (s.drop t.length, s.take t.length)
  else none

/-- nom `one_of`: a single character drawn from the given list. -/
def one_of (cs : Input) (s : Input) : Option (Input × Char) :=
  match s with
  | [] => none
  | c :: rest => if cs.contains c then some (rest, c) else none

/-- nom `char(c)`: exactly the character `c`. -/
def char_p (c : Char) (s : Input) : Option (Input × Char) :=
  match s with
  | [] => none
  | c2 :: rest => if c2 = c then some (rest, c) else none

/-- Combinator `opt_one_of(list, s)`: `opt(one_of(list))`, never fails. -/
def opt_one_of (cs : Input) (s : Input) : Input × Option Char :=
  match one_of cs s with
  | some (rest, c) => (rest, some c)
  | none => (s, none)

/-- Combinator `opt(tag(t))`: remaining input after an optional exact literal. -/
def opt_tag (t : Input) (s : Input) : Input :=
  match tag t s with
  | some (rest, _) => rest
  | none => s

/-- Combinator `opt(tag_no_case(t))`: remaining input after an optional case-insensitive
literal. -/
def opt_tag_no_case (t : Input) (s : Input) : Input :=
  match tag_no_case t s with
  | some (rest, _) => rest
  | none => s

/-- The `words` combinator: for each word, skip whitespace then match the
word case-insensitively.  Its parsed value is the empty slice, as in the
source (`&s[0..s.len() - s.len()]`). -/
def words (ws : List String) (s : Input) : Option (Input × Input) :=
  match ws with
  | [] => some (s, [])
  | w :: rest =>
    match tag_no_case w.toList (multispace0 s).1 with
    | some (s2, _) => words rest s2
    | none => none

/-- nom `alt`: first parser in the list to succeed wins. -/
def first_of (ps : List (Input → Option (Input × Input))) (s : Input) :
    Option (Input × Input) :=
  match ps with
  | [] => none
  | p :: rest =>
    match p s with
    | some r => some r
    | none => first_of rest s

/-- The `fpl` phrase matcher: either the literal "fpl", or "full"/"poll",
an optional single separator (space or hyphen), one of the enumerated
second words, optional whitespace and an optional "level".  Returns the
consumed span of the input as its value. -/
def fpl (s : Input) : Option (Input × Input) :=
  match tag_no_case ( "fpl".toList) s with
  | some r => some r
  | none =>
    match first_of [tag_no_case ( "full".toList), tag_no_case ( "poll".toList)] s with
    | none => none
    | some (s1, _) =>
      let s2 := (opt_one_of ( " -".toList) s1).1
      match first_of [
          words ["career", "ladder", "grade"],
          tag_no_case ( "grade".toList),
          tag_no_case ( "peformance".toList),
          tag_no_case ( "perf.".toList),
          tag_no_case ( "perfformance".toList),
          tag_no_case ( "performance".toList),
          tag_no_case ( "performane".toList),
          tag_no_case ( "perfromance".toList),
          tag_no_case ( "perormance".toList),
          tag_no_case ( "promotion".toList)] s2 with
      | none => none
      | some (s3, _) =>
        let s4 := (multispace0 s3).1
        let s5 := opt_tag_no_case ( "level".toList) s4
        some (s5, s.take (s.length - s5.length))

/-- The optional connective clause of `fpl_grade`, flattened from the
nested `opt(alt(...))` of the source in its exact priority order.  Never
fails; returns the remaining input. -/
def fpl_connective (s : Input) : Input :=
  match first_of [
      tag ( "-".toList),
      tag ( ",".toList),
      tag ( ":".toList),
      tag ( "(fpl)".toList),
      tag ( "(".toList),
      tag ( "=".toList),
      words ["at", "grade", "level"],
      tag_no_case ( "at".toList),
      words ["for", "this", "pd", "is"],
      words ["for", "this", "position", "is"],
      words ["is", "at", "the"],
      words ["is", "at"],
      words ["is", "level", ":"],
      words ["is", "the"],
      words ["management", "analyst"],
      tag_no_case ( "is".toList),
      words ["of", "a", "career", "ladder", "position"],
      words ["of", "a"],
      words ["of", "position", "is"],
      words ["of", "position", ":"],
      words ["of", "the", "position", "is"],
      words ["of", "this", "pd", "is"],
      words ["of", "this", "position", "is"]] s with
  | some (rest, _) => rest
  | none => s

/-- The `grade` tokenizer: a bare 1-2 digit run, or a 2-letter pay-plan
code, an optional separator from space/hyphen/period, an optional extra
space, then the digit logic of the source (series-vs-grade
disambiguation). -/
def grade (s : Input) : Option (Input × Input) :=
  match max_digits 2 s with
  | some r => some r
  | none =>
    match alphas 2 s with
    | none => none
    | some (s1, _) =>
      let p2 := opt_one_of ( " -.".toList) s1
      let s3 := opt_tag ( " ".toList) p2.1
      match p2.2 with
      | none => max_digits 2 s3
      | some sep =>
        if sep = ' ' then max_digits 2 s3
        else
          match max_digits 4 s3 with
          | none => none
          | some (s4, grade_or_series) =>
            match char_p sep s4 with
            | some (s5, _) =>
              match max_digits 2 s5 with
              | some r => some r
              | none =>
                if grade_or_series.length ≤ 2 then some (s4, grade_or_series)
                else none
            | none =>
              if grade_or_series.length ≤ 2 then some (s4, grade_or_series)
              else none

/-- One round of separator skipping in the `max_grade` loop: whitespace,
an optional "," or "/", then whitespace again. -/
def sep_skip (s : Input) : Input :=
  (multispace0 ((opt_one_of ( ",/".toList) ((multispace0 s).1)).1)).1

/-- The loop of `max_grade`, with explicit fuel so that the definition is
structurally recursive (each successful `grade` parse strictly consumes
input, so fuel `s.length + 1` is never exhausted; see
`max_grade_aux_fuel_congr`). -/
def max_grade_aux (fuel : Nat) (best : Input) (s : Input) :
    Option (Input × Input) :=
  match fuel with
  | 0 => none
  | fuel2 + 1 =>
    let s3 := sep_skip s
    match grade s3 with
    | some (gs, g) => max_grade_aux fuel2 g gs
    | none => some (s3, best)

/-- The `max_grade` grade-chain resolver: one `grade` token, then the
last-wins chain loop. -/
def max_grade (s : Input) : Option (Input × Input) :=
  match grade s with
  | none => none
  | some (t, g) => max_grade_aux (t.length + 1) g t

/-- The chain loop entered with held grade `best` and remaining input `s`,
at its canonical (sufficient) fuel. -/
def max_grade_iter (best : Input) (s : Input) : Option (Input × Input) :=
  max_grade_aux (s.length + 1) best s

/-- Parser `fpl_grade`: phrase, whitespace, optional connective clause,
whitespace, then the grade chain. -/
def fpl_grade (s : Input) : Option (Input × Input) :=
  match fpl s with
  | none => none
  | some (s1, _) =>
    let s2 := (multispace0 s1).1
    let s3 := fpl_connective s2
    let s4 := (multispace0 s3).1
    max_grade s4

/-- Parser `target_grade`: "target", optional "ed", whitespace, an optional
connective from the second family, whitespace, then the grade chain. -/
def target_grade (s : Input) : Option (Input × Input) :=
  match tag_no_case ( "target".toList) s with
  | none => none
  | some (s1, _) =>
    let s2 := opt_tag_no_case ( "ed".toList) s1
    let s3 := (multispace0 s2).1
    let s4 :=
      match first_of [
          tag_no_case ( "to".toList),
          words ["position", ","],
          words ["position", "posted", "as", "at", "a"]] s3 with
      | some (rest, _) => rest
      | none => s3
    let s5 := (multispace0 s4).1
    max_grade s5

/-- nom `many_till(anychar, p)`: try `p` at the current offset; on failure
drop one character and retry.  Fails only when `p` fails at every suffix
(including the empty one). -/
def scan_till (p : Input → Option (Input × Input)) : Input → Option (Input × Input)
  | [] => p []
  | c :: rest =>
    match p (c :: rest) with
    | some r => some r
    | none => scan_till p rest

/-- Extractor `get_fpl_grade`: scan the whole text for `fpl_grade`, then - only if
that fails everywhere - scan the whole text for `target_grade`. -/
def get_fpl_grade (s : Input) : Option Input :=
  match scan_till fpl_grade s with
  | some (_, g) => some g
  | none =>
    match scan_till target_grade s with
    | some (_, g) => some g
    | none => none

/-- Decomposition `get_match_prefix_and_suffix`: the source locates the matched slice
`m` inside `s` by pointer arithmetic; the pointer offset is modelled as
the explicit index `off` of the occurrence of `m` in `s`. -/
def get_match_prefix_and_suffix (s m : Input) (off : Nat) : Input × Input :=
  (s.take off, s.drop (off + m.length))

/-- Rust `str::split_whitespace` (ASCII model): maximal runs of
non-whitespace characters, in order. -/
def split_whitespace : Input → List Input
  | [] => []
  | c :: rest =>
    if c.isWhitespace then split_whitespace rest
    else
      match rest with
      | [] => [[c]]
      | d :: _ =>
        if d.isWhitespace then [c] :: split_whitespace rest
        else
          match split_whitespace rest with
          | [] => [[c]]
          | w :: ws => (c :: w) :: ws

/-- Rust `[&str]::join(" ")`: words joined by single spaces. -/
def join_words : List Input → Input
  | [] => []
  | [w] => w
  | w :: ws => w ++ ' ' :: join_words ws

/-- Normalizer `normalize`: split on whitespace, join with single spaces, lowercase
(ASCII model of `to_lowercase`). -/
def normalize (s : Input) : Input :=
  (join_words (split_whitespace s)).map to_lower

/-! ### Character-class facts -/

/-- An ASCII digit is not an ASCII letter. -/
theorem isAlpha_eq_false_of_isDigit {c : Char} (h : c.isDigit = true) :
    c.isAlpha = false := by
  simp only [Char.isDigit, Char.isAlpha, Char.isUpper, Char.isLower,
    Bool.and_eq_true, decide_eq_true_eq, Bool.or_eq_false_iff, Bool.and_eq_false_iff,
    decide_eq_false_iff_not, GE.ge] at h ⊢
  simp only [UInt32.le_def, BitVec.le_def] at h ⊢
  have e1 : (UInt32.toBitVec 48).toNat = 48 := rfl
  have e2 : (UInt32.toBitVec 57).toNat = 57 := rfl
  have e3 : (UInt32.toBitVec 65).toNat = 65 := rfl
  have e4 : (UInt32.toBitVec 90).toNat = 90 := rfl
  have e5 : (UInt32.toBitVec 97).toNat = 97 := rfl
  have e6 : (UInt32.toBitVec 122).toNat = 122 := rfl
  omega

/-- A character whose `isDigit` differs from `c`'s cannot equal `c`. -/
theorem ne_of_isDigit_ne {c d : Char} (hc : c.isDigit = true)
    (hd : d.isDigit = false) : c ≠ d := by
  intro he
  rw [he, hd] at hc
  cases hc

/-! ### Length lemmas: every parser consumes input monotonically -/

theorem multispace0_fst_length (s : Input) :
    (multispace0 s).1.length ≤ s.length :=
  (List.dropWhile_suffix Char.isWhitespace).length_le

theorem digit1_length {s t r : Input} (h : digit1 s = some (t, r)) :
    t.length < s.length ∧ r ≠ [] := by
  unfold digit1 at h
  simp only [] at h
  split at h
  · cases h
  · rename_i hne
    cases h
    have hlen := congrArg List.length (List.takeWhile_append_dropWhile (p := Char.isDigit) (l := s))
    simp only [List.length_append] at hlen
    have hpos : 0 < (s.takeWhile Char.isDigit).length := List.length_pos.mpr hne
    exact ⟨by omega, hne⟩

theorem alpha1_length {s t r : Input} (h : alpha1 s = some (t, r)) :
    t.length < s.length ∧ r ≠ [] := by
  unfold alpha1 at h
  simp only [] at h
  split at h
  · cases h
  · rename_i hne
    cases h
    have hlen := congrArg List.length (List.takeWhile_append_dropWhile (p := Char.isAlpha) (l := s))
    simp only [List.length_append] at hlen
    have hpos : 0 < (s.takeWhile Char.isAlpha).length := List.length_pos.mpr hne
    exact ⟨by omega, hne⟩

theorem max_digits_length {n : Nat} {s t r : Input}
    (h : max_digits n s = some (t, r)) : t.length < s.length := by
  unfold max_digits at h
  split at h
  · rename_i t2 r2 h2
    split at h
    · cases h
      exact (digit1_length h2).1
    · cases h
  · cases h

theorem alphas_length {n : Nat} {s t r : Input}
    (h : alphas n s = some (t, r)) : t.length < s.length := by
  unfold alphas at h
  split at h
  · rename_i t2 r2 h2
    split at h
    · cases h
      exact (alpha1_length h2).1
    · cases h
  · cases h

theorem char_p_length {c : Char} {s t : Input} {v : Char}
    (h : char_p c s = some (t, v)) : t.length < s.length := by
  unfold char_p at h
  split at h
  · cases h
  · split at h
    · cases h
      simp
    · cases h

theorem opt_one_of_fst_length (cs : Input) (s : Input) :
    (opt_one_of cs s).1.length ≤ s.length := by
  unfold opt_one_of one_of
  split
  · rename_i r c h
    split at h
    · cases h
    · split at h
      · cases h
        simp
      · cases h
  · exact Nat.le_refl _

theorem opt_tag_length (t s : Input) : (opt_tag t s).length ≤ s.length := by
  unfold opt_tag tag
  split
  · rename_i r v h
    split at h
    · cases h
      simp
    · cases h
  · exact Nat.le_refl _

theorem opt_tag_no_case_length (t s : Input) :
    (opt_tag_no_case t s).length ≤ s.length := by
  unfold opt_tag_no_case tag_no_case
  split
  · rename_i r v h
    split at h
    · cases h
      simp
    · cases h
  · exact Nat.le_refl _

/-- A successful `grade` parse strictly consumes input. -/
theorem grade_length {s t g : Input} (h : grade s = some (t, g)) :
    t.length < s.length := by
  unfold grade at h
  split at h
  · rename_i t2 g2 h2
    cases h
    exact max_digits_length h2
  · rename_i h1
    split at h
    · cases h
    · rename_i s1 r1 h2
      have hs1 : s1.length < s.length := alphas_length h2
      have hp2 : (opt_one_of ( " -.".toList) s1).1.length ≤ s1.length :=
        opt_one_of_fst_length _ _
      have hs3 : (opt_tag ( " ".toList) (opt_one_of ( " -.".toList) s1).1).length ≤
          (opt_one_of ( " -.".toList) s1).1.length := opt_tag_length _ _
      simp only [] at h
      split at h
      · have := max_digits_length h
        omega
      · split at h
        · have := max_digits_length h
          omega
        · split at h
          · cases h
          · rename_i s4 gos h4
            have hs4 := max_digits_length h4
            split at h
            · rename_i s5 v5 h5
              have hs5 := char_p_length h5
              split at h
              · rename_i r6 h6
                cases h
                have := max_digits_length h6
                omega
              · split at h
                · cases h
                  omega
                · cases h
            · split at h
              · cases h
                omega
              · cases h

theorem sep_skip_length (s : Input) : (sep_skip s).length ≤ s.length := by
  unfold sep_skip
  have h1 := multispace0_fst_length s
  have h2 := opt_one_of_fst_length ( ",/".toList) (multispace0 s).1
  have h3 := multispace0_fst_length (opt_one_of ( ",/".toList) (multispace0 s).1).1
  omega

/-- The fuel given to `max_grade_aux` is irrelevant as long as it exceeds
the length of the remaining input: each loop round strictly consumes. -/
theorem max_grade_aux_fuel_congr {f1 f2 : Nat} {best s : Input}
    (h1 : s.length < f1) (h2 : s.length < f2) :
    max_grade_aux f1 best s = max_grade_aux f2 best s := by
  induction f1 generalizing f2 best s with
  | zero => omega
  | succ f1 ih =>
    cases f2 with
    | zero => omega
    | succ f2 =>
      simp only [max_grade_aux]
      rcases hg : grade (sep_skip s) with _ | ⟨gs, g⟩
      · simp only [hg]
      · simp only [hg]
        have hgs := grade_length hg
        have hss := sep_skip_length s
        exact ih (by omega) (by omega)

/-! ### Characterization of the `many_till(anychar, _)` scan -/

/-- The scan succeeds with result `r` exactly when the scanned parser
succeeds with `r` at some offset and fails at every earlier offset. -/
theorem scan_till_eq_some_iff (p : Input → Option (Input × Input)) (s : Input)
    (r : Input × Input) :
    scan_till p s = some r ↔
      ∃ i, i ≤ s.length ∧ p (s.drop i) = some r ∧
        ∀ j, j < i → p (s.drop j) = none := by
  induction s with
  | nil =>
    simp only [scan_till]
    constructor
    · intro h
      exact ⟨0, Nat.le_refl _, h, fun j hj => absurd hj (Nat.not_lt_zero j)⟩
    · rintro ⟨i, hi, hp, _⟩
      cases Nat.le_zero.mp hi
      exact hp
  | cons c t ih =>
    simp only [scan_till]
    rcases h0 : p (c :: t) with _ | r0
    · rw [ih]
      constructor
      · rintro ⟨i, hi, hp, hj⟩
        refine ⟨i + 1, by simpa using hi, hp, ?_⟩
        intro j hj2
        cases j with
        | zero => exact h0
        | succ j => exact hj j (Nat.lt_of_succ_lt_succ hj2)
      · rintro ⟨i, hi, hp, hj⟩
        cases i with
        | zero =>
          rw [List.drop_zero] at hp
          rw [h0] at hp
          cases hp
        | succ i =>
          exact ⟨i, Nat.le_of_succ_le_succ hi, hp,
            fun j hj2 => hj (j + 1) (Nat.succ_lt_succ hj2)⟩
    · constructor
      · intro h
        cases h
        exact ⟨0, Nat.zero_le _, h0, fun j hj => absurd hj (Nat.not_lt_zero j)⟩
      · rintro ⟨i, hi, hp, hj⟩
        cases i with
        | zero =>
          rw [List.drop_zero] at hp
          rw [h0] at hp
          exact hp.symm ▸ rfl
        | succ i =>
          have := hj 0 (Nat.succ_pos i)
          rw [List.drop_zero] at this
          rw [h0] at this
          cases this

/-- The scan fails exactly when the scanned parser fails at every suffix. -/
theorem scan_till_eq_none_iff (p : Input → Option (Input × Input)) (s : Input) :
    scan_till p s = none ↔ ∀ i, p (s.drop i) = none := by
  induction s with
  | nil =>
    simp only [scan_till, List.drop_nil]
    constructor
    · intro h i
      exact h
    · intro h
      exact h 0
  | cons c t ih =>
    simp only [scan_till]
    rcases h0 : p (c :: t) with _ | r0
    · rw [ih]
      constructor
      · intro h i
        cases i with
        | zero => exact h0
        | succ i => exact h i
      · intro h i
        exact h (i + 1)
    · constructor
      · intro h
        cases h
      · intro h
        have := h 0
        rw [List.drop_zero] at this
        rw [h0] at this
        cases this

theorem get_fpl_grade_eq_some_iff (s g : Input) :
    get_fpl_grade s = some g ↔
      (∃ r, scan_till fpl_grade s = some (r, g)) ∨
      (scan_till fpl_grade s = none ∧
        ∃ r, scan_till target_grade s = some (r, g)) := by
  unfold get_fpl_grade
  rcases h1 : scan_till fpl_grade s with _ | ⟨r1, g1⟩
  · rcases h2 : scan_till target_grade s with _ | ⟨r2, g2⟩
    · simp [h1, h2]
    · simp [h1, h2, eq_comm]
  · simp [h1, eq_comm]

theorem get_fpl_grade_eq_none_iff (s : Input) :
    get_fpl_grade s = none ↔
      scan_till fpl_grade s = none ∧ scan_till target_grade s = none := by
  unfold get_fpl_grade
  rcases h1 : scan_till fpl_grade s with _ | ⟨r1, g1⟩
  · rcases h2 : scan_till target_grade s with _ | ⟨r2, g2⟩ <;> simp [h1, h2]
  · simp [h1]

theorem scan_till_value_iff (p : Input → Option (Input × Input)) (s g : Input) :
    (∃ r, scan_till p s = some (r, g)) ↔
      ∃ i, i ≤ s.length ∧ (∃ r, p (s.drop i) = some (r, g)) ∧
        ∀ j, j < i → p (s.drop j) = none := by
  constructor
  · rintro ⟨r, h⟩
    obtain ⟨i, hi, hp, hj⟩ := (scan_till_eq_some_iff p s (r, g)).mp h
    exact ⟨i, hi, ⟨r, hp⟩, hj⟩
  · rintro ⟨i, hi, ⟨r, hp⟩, hj⟩
    exact ⟨r, (scan_till_eq_some_iff p s (r, g)).mpr ⟨i, hi, hp, hj⟩⟩

/-- C1: the grade-chain resolver `max_grade` parses one grade token, then
repeatedly attempts further grade tokens, each success replacing the held
grade (last-wins); it stops at the first position where no further grade
token parses, returning the held grade and the remaining text there; and
on the two named chains it returns "13" resp. "7" with nothing left. -/
theorem max_grade_chain_spec :
    (∀ s, grade s = none → max_grade s = none) ∧
    (∀ s t g, grade s = some (t, g) → max_grade s = max_grade_iter g t) ∧
    (∀ best s, grade (sep_skip s) = none →
      max_grade_iter best s = some (sep_skip s, best)) ∧
    (∀ best s t g, grade (sep_skip s) = some (t, g) →
      max_grade_iter best s = max_grade_iter g t) ∧
    max_grade ( "gs-11/12/13".toList) = some ([], "13".toList) ∧
    max_grade ( "gs-5 / gs-6 / gs-7".toList) = some ([], "7".toList) := by
  refine ⟨?_, ?_, ?_, ?_, by decide, by decide⟩
  · intro s h
    unfold max_grade
    rw [h]
  · intro s t g h
    unfold max_grade
    rw [h]
    rfl
  · intro best s h
    unfold max_grade_iter
    simp only [max_grade_aux]
    rw [h]
  · intro best s t g h
    unfold max_grade_iter
    have step : max_grade_aux (s.length + 1) best s = max_grade_aux s.length g t := by
      simp only [max_grade_aux]
      rw [h]
    rw [step]
    have ht : t.length < (sep_skip s).length := grade_length h
    have hss := sep_skip_length s
    apply max_grade_aux_fuel_congr <;> omega

/-- Witness for C1: a concrete chain step, with the hypothesis discharged
by evaluation. -/
theorem max_grade_chain_spec_witness :
    grade ( "13 x".toList) = some ( " x".toList, "13".toList) ∧
      max_grade ( "13 x".toList) = max_grade_iter ( "13".toList) ( " x".toList) :=
  ⟨by decide, max_grade_chain_spec.2.1 _ _ _ (by decide)⟩

/-- C2: the top-level extractor scans for phrase family 1 (`fpl_grade`) at
every start offset, one character at a time; only if that fails at every
offset does it rescan the whole text for family 2 (`target_grade`); it
returns the grade of the first fully successful attempt, and `none`
exactly when both scans exhaust the text. -/
theorem get_fpl_grade_scan_spec (s : Input) :
    (∀ g, get_fpl_grade s = some g ↔
      (∃ i, i ≤ s.length ∧ (∃ r, fpl_grade (s.drop i) = some (r, g)) ∧
        ∀ j, j < i → fpl_grade (s.drop j) = none) ∨
      ((∀ i, fpl_grade (s.drop i) = none) ∧
        ∃ i, i ≤ s.length ∧ (∃ r, target_grade (s.drop i) = some (r, g)) ∧
          ∀ j, j < i → target_grade (s.drop j) = none)) ∧
    (get_fpl_grade s = none ↔
      (∀ i, fpl_grade (s.drop i) = none) ∧
      (∀ i, target_grade (s.drop i) = none)) := by
  constructor
  · intro g
    rw [get_fpl_grade_eq_some_iff, scan_till_value_iff, scan_till_value_iff,
      scan_till_eq_none_iff]
  · rw [get_fpl_grade_eq_none_iff, scan_till_eq_none_iff, scan_till_eq_none_iff]

/-- Witness for C2: the first-success disjunct instantiated on a concrete
text. -/
theorem get_fpl_grade_scan_spec_witness :
    get_fpl_grade ( "fpl 7".toList) = some ( "7".toList) :=
  ((get_fpl_grade_scan_spec ( "fpl 7".toList)).1 ( "7".toList)).mpr
    (Or.inl ⟨0, by decide, ⟨[], by decide⟩,
      fun j hj => absurd hj (Nat.not_lt_zero j)⟩)

/-- C6: whenever the matched substring `m` occurs in `s` at offset `off`,
the decomposition computed by `get_match_prefix_and_suffix` reassembles
`s` exactly. -/
theorem get_match_prefix_and_suffix_reconstructs (s m : Input) (off : Nat)
    (h : s.drop off = m ++ s.drop (off + m.length)) :
    (get_match_prefix_and_suffix s m off).1 ++ m ++
      (get_match_prefix_and_suffix s m off).2 = s := by
  unfold get_match_prefix_and_suffix
  conv_rhs => rw [← List.take_append_drop off s, h]
  rw [List.append_assoc]

/-- Witness for C6: the decomposition of a concrete text around a
concrete matched slice. -/
theorem get_match_prefix_and_suffix_reconstructs_witness :
    (get_match_prefix_and_suffix ( "fpl: gs-13".toList) ( "13".toList) 8).1 ++
      "13".toList ++
      (get_match_prefix_and_suffix ( "fpl: gs-13".toList) ( "13".toList) 8).2 =
      "fpl: gs-13".toList :=
  get_match_prefix_and_suffix_reconstructs _ _ 8 (by decide)

/-- C7: the top-level extraction is total (it always yields either a
grade or `none`) and deterministic (equal inputs give equal outputs). -/
theorem get_fpl_grade_total_deterministic :
    ∀ s : Input, (get_fpl_grade s = none ∨ ∃ g, get_fpl_grade s = some g) ∧
      ∀ t : Input, s = t → get_fpl_grade s = get_fpl_grade t := by
  intro s
  constructor
  · rcases h : get_fpl_grade s with _ | g
    · exact Or.inl rfl
    · exact Or.inr ⟨g, rfl⟩
  · intro t h
    rw [h]

/-- Witness for C7: determinism applied at a concrete input. -/
theorem get_fpl_grade_total_deterministic_witness :
    get_fpl_grade ( "fpl: gs-13".toList) = get_fpl_grade ( "fpl: gs-13".toList) :=
  (get_fpl_grade_total_deterministic ( "fpl: gs-13".toList)).2 _ rfl

/-! ### Helper facts for the grade tokenizer's rejection cases -/

theorem isDigit_eq_false_of_isAlpha {c : Char} (h : c.isAlpha = true) :
    c.isDigit = false := by
  cases hd : c.isDigit
  · rfl
  · rw [isAlpha_eq_false_of_isDigit hd] at h
    cases h

theorem takeWhile_append_of_all {p : Char → Bool} {xs ys : Input}
    (hxs : ∀ c ∈ xs, p c = true) (hys : ∀ c ∈ ys.head?, p c = false) :
    (xs ++ ys).takeWhile p = xs ∧ (xs ++ ys).dropWhile p = ys := by
  induction xs with
  | nil =>
    simp only [List.nil_append]
    cases ys with
    | nil => simp
    | cons y t =>
      have hy : p y = false := hys y rfl
      simp [List.takeWhile_cons, List.dropWhile_cons, hy]
  | cons x xs ih =>
    have hx : p x = true := hxs x (List.mem_cons_self x xs)
    have ih2 := ih (fun c hc => hxs c (List.mem_cons_of_mem x hc))
    simp [List.takeWhile_cons, List.dropWhile_cons, hx, ih2.1, ih2.2]

/-- A digit run longer than `n` placed before a non-digit boundary makes
`max_digits n` fail. -/
theorem max_digits_long_none {n : Nat} {ds rest : Input}
    (hds : ∀ c ∈ ds, c.isDigit = true)
    (hrest : ∀ c ∈ rest.head?, c.isDigit = false)
    (hlen : n < ds.length) : max_digits n (ds ++ rest) = none := by
  obtain ⟨ht, hd⟩ := takeWhile_append_of_all hds hrest
  have hne : ds ≠ [] := by
    intro he
    rw [he] at hlen
    simp at hlen
  unfold max_digits digit1
  simp only [ht, hd, if_neg hne]
  rw [if_neg (by omega)]

theorem one_of_head_mem {cs : Input} {c : Char} {t : Input}
    (h : cs.contains c = true) : one_of cs (c :: t) = some (t, c) := by
  unfold one_of
  exact if_pos h

theorem one_of_head_not_mem {cs : Input} {c : Char} {t : Input}
    (h : cs.contains c = false) : one_of cs (c :: t) = none := by
  unfold one_of
  exact if_neg (by rw [h]; exact Bool.false_ne_true)

theorem opt_tag_single_head_ne {c d : Char} {t : Input} (h : d ≠ c) :
    opt_tag [c] (d :: t) = d :: t := by
  unfold opt_tag tag
  simp [List.take_succ_cons, h]

/-- Parser `digit1` (and hence `max_digits`) fails when the first character is
not a digit. -/
theorem max_digits_none_of_head_not_digit {n : Nat} {c : Char} {t : Input}
    (h : c.isDigit = false) : max_digits n (c :: t) = none := by
  unfold max_digits digit1
  simp [List.takeWhile_cons, h]

/-- C3: the grade tokenizer fails on every numeric run longer than 2
digits with no pay-plan prefix, and on every run longer than 4 digits
after a 2-letter pay-plan prefix and optional separator; and it rejects
the spec's concrete inputs "123", "gs-123", "gs-1234-123", "gs-12345-12"
and "gs123". -/
theorem grade_rejects_long_runs :
    (∀ s : Input, 2 < (s.takeWhile Char.isDigit).length → grade s = none) ∧
    (∀ (a b : Char) (sepl ds rest : Input),
      a.isAlpha = true → b.isAlpha = true →
      (sepl = [] ∨ sepl = [' '] ∨ sepl = ['-'] ∨ sepl = ['.']) →
      (∀ c ∈ ds, c.isDigit = true) → 4 < ds.length →
      (∀ c ∈ rest.head?, c.isDigit = false) →
      grade ([a, b] ++ sepl ++ ds ++ rest) = none) ∧
    grade ( "123".toList) = none ∧
    grade ( "gs-123".toList) = none ∧
    grade ( "gs-1234-123".toList) = none ∧
    grade ( "gs-12345-12".toList) = none ∧
    grade ( "gs123".toList) = none := by
  refine ⟨?_, ?_, by decide, by decide, by decide, by decide, by decide⟩
  · intro s h
    have hne : s.takeWhile Char.isDigit ≠ [] := by
      intro he
      rw [he] at h
      simp at h
    have hmd : max_digits 2 s = none := by
      unfold max_digits digit1
      simp only [if_neg hne]
      rw [if_neg (by omega)]
    obtain ⟨c, t, rfl⟩ : ∃ c t, s = c :: t := by
      cases s with
      | nil => simp at hne
      | cons c t => exact ⟨c, t, rfl⟩
    have hcd : c.isDigit = true := by
      by_contra hc
      rw [List.takeWhile_cons, if_neg (by simpa using hc)] at hne
      exact hne rfl
    have hca : c.isAlpha = false := isAlpha_eq_false_of_isDigit hcd
    have hal : alphas 2 (c :: t) = none := by
      unfold alphas alpha1
      simp [List.takeWhile_cons, hca]
    unfold grade
    simp only [hmd, hal]
  · intro a b sepl ds rest ha hb hsep hds hlen hrest
    obtain ⟨d, ds2, rfl⟩ : ∃ d ds2, ds = d :: ds2 := by
      cases ds with
      | nil => simp at hlen
      | cons d ds2 => exact ⟨d, ds2, rfl⟩
    have hd1 : d.isDigit = true := hds d (List.mem_cons_self d ds2)
    have hda : d.isAlpha = false := isAlpha_eq_false_of_isDigit hd1
    have hab : ∀ c ∈ [a, b], c.isAlpha = true := by
      intro c hc
      simp at hc
      rcases hc with rfl | rfl
      · exact ha
      · exact hb
    have hhead : ∀ c ∈ (sepl ++ d :: (ds2 ++ rest)).head?, c.isAlpha = false := by
      rcases hsep with rfl | rfl | rfl | rfl
      · intro c hc
        simp at hc
        subst hc
        exact hda
      all_goals
        intro c hc
        simp at hc
        subst hc
        decide
    have hrun := @takeWhile_append_of_all Char.isAlpha [a, b]
      (sepl ++ d :: (ds2 ++ rest)) hab hhead
    simp only [List.cons_append, List.nil_append] at hrun
    have hal : alphas 2 (a :: b :: (sepl ++ d :: (ds2 ++ rest))) =
        some (sepl ++ d :: (ds2 ++ rest), [a, b]) := by
      unfold alphas alpha1
      simp [hrun.1, hrun.2]
    have hmd : max_digits 2 (a :: b :: (sepl ++ d :: (ds2 ++ rest))) = none :=
      max_digits_none_of_head_not_digit (isDigit_eq_false_of_isAlpha ha)
    have hne_sp : d ≠ ' ' := ne_of_isDigit_ne hd1 (by decide)
    have hne_hy : d ≠ '-' := ne_of_isDigit_ne hd1 (by decide)
    have hne_dt : d ≠ '.' := ne_of_isDigit_ne hd1 (by decide)
    have hmd2 : max_digits 2 (d :: (ds2 ++ rest)) = none :=
      max_digits_long_none hds hrest (by omega)
    have hmd4 : max_digits 4 (d :: (ds2 ++ rest)) = none :=
      max_digits_long_none hds hrest (by omega)
    have hcontains : ([' ', '-', '.'] : Input).contains d = false := by
      simp [List.contains, hne_sp, hne_hy, hne_dt]
    simp only [List.cons_append, List.nil_append, List.append_assoc]
    unfold grade
    simp only [hmd, hal]
    rw [show ( " -.".toList : Input) = [' ', '-', '.'] from rfl,
      show ( " ".toList : Input) = [' '] from rfl]
    rcases hsep with rfl | rfl | rfl | rfl
    · simp only [List.nil_append]
      unfold opt_one_of
      rw [one_of_head_not_mem hcontains]
      simp only []
      rw [opt_tag_single_head_ne hne_sp]
      exact hmd2
    · simp only [List.cons_append, List.nil_append]
      unfold opt_one_of
      rw [one_of_head_mem (by decide : ([' ', '-', '.'] : Input).contains ' ' = true)]
      simp only []
      rw [opt_tag_single_head_ne hne_sp]
      rw [if_pos trivial]
      exact hmd2
    · simp only [List.cons_append, List.nil_append]
      unfold opt_one_of
      rw [one_of_head_mem (by decide : ([' ', '-', '.'] : Input).contains '-' = true)]
      simp only []
      rw [opt_tag_single_head_ne hne_sp]
      rw [if_neg (show ¬ ('-' = ' ') from by decide)]
      rw [hmd4]
    · simp only [List.cons_append, List.nil_append]
      unfold opt_one_of
      rw [one_of_head_mem (by decide : ([' ', '-', '.'] : Input).contains '.' = true)]
      simp only []
      rw [opt_tag_single_head_ne hne_sp]
      rw [if_neg (show ¬ ('.' = ' ') from by decide)]
      rw [hmd4]

/-- Witness for C3: both universal parts applied at concrete inputs. -/
theorem grade_rejects_long_runs_witness :
    (2 < (( "999".toList : Input).takeWhile Char.isDigit).length ∧
      grade ( "999".toList) = none) ∧
    grade (['w', 'g'] ++ ['-'] ++ "55555".toList ++ []) = none :=
  ⟨⟨by decide, grade_rejects_long_runs.1 ( "999".toList) (by decide)⟩,
    grade_rejects_long_runs.2.1 'w' 'g' ['-'] ( "55555".toList) []
      (by decide) (by decide) (Or.inr (Or.inr (Or.inl rfl)))
      (by decide) (by decide) (by intro c hc; simp at hc)⟩

/-- C4: end-to-end extraction on the spec's named scenarios. -/
theorem extraction_named_scenarios :
    get_fpl_grade ( "fpl: gs-13".toList) = some ( "13".toList) ∧
    get_fpl_grade ( "full performance level is at GS-0510-09".toList) =
      some ( "09".toList) ∧
    get_fpl_grade ( "targeted to GS-7".toList) = some ( "7".toList) ∧
    get_fpl_grade ( "this is unrelated text".toList) = none :=
  ⟨by decide, by decide, by decide, by decide⟩

/-- C9: the "fpl" literal is not word-boundary anchored, so "fplan 12"
yields the grade "12" rather than no grade. -/
theorem fpl_matches_inside_longer_word :
    get_fpl_grade ( "fplan 12".toList) = some ( "12".toList) := by decide

/-- C10: on the un-normalized text with two spaces after "full" the
extraction is absent, while on its normalized form it yields "7". -/
theorem unnormalized_vs_normalized_extraction :
    get_fpl_grade ( "full  performance level is gs-7".toList) = none ∧
    normalize ( "full  performance level is gs-7".toList) =
      "full performance level is gs-7".toList ∧
    get_fpl_grade ( "full performance level is gs-7".toList) =
      some ( "7".toList) :=
  ⟨by decide, by decide, by decide⟩

/-! ### No phrase keyword, no grade (C5) -/

/-- A successful `tag_no_case` means the lowercased tag is a prefix of the
lowercased input. -/
theorem tag_no_case_starts_lower {t s r m : Input}
    (h : tag_no_case t s = some (r, m)) :
    (t.map to_lower) <+: (s.map to_lower) := by
  unfold tag_no_case at h
  split at h
  · rename_i hcond
    cases h
    rw [← hcond, List.map_take]
    exact List.take_prefix _ _
  · cases h

/-- A successful `fpl` phrase match begins with one of the three lead
keywords, case-insensitively. -/
theorem fpl_some_keyword {s r m : Input} (h : fpl s = some (r, m)) :
    ( "fpl".toList.map to_lower) <+: (s.map to_lower) ∨
    ( "full".toList.map to_lower) <+: (s.map to_lower) ∨
    ( "poll".toList.map to_lower) <+: (s.map to_lower) := by
  unfold fpl at h
  split at h
  · rename_i r0 h0
    obtain ⟨r1, m1⟩ := r0
    exact Or.inl (tag_no_case_starts_lower h0)
  · rename_i h0
    simp only [first_of] at h
    split at h
    · cases h
    · rename_i s1 m1 halt
      split at halt
      · rename_i r2 h2
        cases halt
        exact Or.inr (Or.inl (tag_no_case_starts_lower h2))
      · rename_i h2
        split at halt
        · rename_i r3 h3
          cases halt
          exact Or.inr (Or.inr (tag_no_case_starts_lower h3))
        · cases halt

/-- A successful `fpl_grade` parse starts with a successful `fpl` parse. -/
theorem fpl_grade_some_fpl {s r g : Input} (h : fpl_grade s = some (r, g)) :
    ∃ r2 m, fpl s = some (r2, m) := by
  unfold fpl_grade at h
  split at h
  · cases h
  · rename_i r2 m h2
    exact ⟨r2, m, h2⟩

/-- A successful `target_grade` parse starts with the keyword "target",
case-insensitively. -/
theorem target_grade_some_keyword {s r g : Input}
    (h : target_grade s = some (r, g)) :
    ( "target".toList.map to_lower) <+: (s.map to_lower) := by
  unfold target_grade at h
  split at h
  · cases h
  · rename_i r2 m h2
    exact tag_no_case_starts_lower h2

/-- A lowercased keyword that prefixes some suffix of the lowercased text
is an infix of the lowercased text. -/
theorem occurs_of_prefix_drop {k l : Input} {i : Nat}
    (h : k <+: l.drop i) : k <:+: l := by
  obtain ⟨t2, ht⟩ := h
  refine ⟨l.take i, t2, ?_⟩
  rw [List.append_assoc, ht, List.take_append_drop]

/-- C5: if none of the phrase-family keywords "fpl", "full", "poll",
"target" occurs case-insensitively in the text, the top-level extraction
returns `none`. -/
theorem no_keyword_no_grade (s : Input)
    (h1 : ¬ ( "fpl".toList <:+: s.map to_lower))
    (h2 : ¬ ( "full".toList <:+: s.map to_lower))
    (h3 : ¬ ( "poll".toList <:+: s.map to_lower))
    (h4 : ¬ ( "target".toList <:+: s.map to_lower)) :
    get_fpl_grade s = none := by
  rw [get_fpl_grade_eq_none_iff]
  constructor
  · rw [scan_till_eq_none_iff]
    intro i
    rcases hF : fpl_grade (s.drop i) with _ | ⟨r, g⟩
    · rfl
    · exfalso
      obtain ⟨r2, m, hfpl⟩ := fpl_grade_some_fpl hF
      have hmap : (s.drop i).map to_lower = (s.map to_lower).drop i :=
        List.map_drop to_lower s i
      rcases fpl_some_keyword hfpl with hk | hk | hk
      · rw [show ( "fpl".toList.map to_lower) = "fpl".toList from rfl, hmap] at hk
        exact h1 (occurs_of_prefix_drop hk)
      · rw [show ( "full".toList.map to_lower) = "full".toList from rfl, hmap] at hk
        exact h2 (occurs_of_prefix_drop hk)
      · rw [show ( "poll".toList.map to_lower) = "poll".toList from rfl, hmap] at hk
        exact h3 (occurs_of_prefix_drop hk)
  · rw [scan_till_eq_none_iff]
    intro i
    rcases hT : target_grade (s.drop i) with _ | ⟨r, g⟩
    · rfl
    · exfalso
      have hk := target_grade_some_keyword hT
      have hmap : (s.drop i).map to_lower = (s.map to_lower).drop i :=
        List.map_drop to_lower s i
      rw [show ( "target".toList.map to_lower) = "target".toList from rfl, hmap] at hk
      exact h4 (occurs_of_prefix_drop hk)

/-- Witness for C5: the keyword-free text "no grade here" yields `none`,
with the four non-occurrence hypotheses discharged by evaluation. -/
theorem no_keyword_no_grade_witness :
    get_fpl_grade ( "no grade here".toList) = none :=
  no_keyword_no_grade ( "no grade here".toList)
    (by decide) (by decide) (by decide) (by decide)

/-! ### Idempotence of normalization (C8) -/

/-- The 26 basic upper-case letters. -/
def ucase : List Char :=
  ['A', 'B', 'C', 'D', 'E', 'F', 'G', 'H', 'I', 'J', 'K', 'L', 'M',
   'N', 'O', 'P', 'Q', 'R', 'S', 'T', 'U', 'V', 'W', 'X', 'Y', 'Z']

theorem to_lower_eq_self_of_not_mem {c : Char} (h : c ∉ ucase) :
    to_lower c = c := by
  unfold to_lower
  split
  all_goals first
    | rfl
    | exact absurd (by decide) h

theorem to_lower_idem (c : Char) : to_lower (to_lower c) = to_lower c := by
  by_cases h : c ∈ ucase
  · fin_cases h <;> decide
  · rw [to_lower_eq_self_of_not_mem h, to_lower_eq_self_of_not_mem h]

theorem isWhitespace_to_lower (c : Char) :
    (to_lower c).isWhitespace = c.isWhitespace := by
  by_cases h : c ∈ ucase
  · fin_cases h <;> decide
  · rw [to_lower_eq_self_of_not_mem h]

/-- Every word produced by `split_whitespace` is nonempty and free of
whitespace characters. -/
theorem split_whitespace_clean (s : Input) :
    ∀ w ∈ split_whitespace s, w ≠ [] ∧ ∀ c ∈ w, c.isWhitespace = false := by
  induction s with
  | nil =>
    intro w hw
    cases hw
  | cons c rest ih =>
    intro w hw
    simp only [split_whitespace] at hw
    split at hw
    · exact ih w hw
    · rename_i hc
      rw [Bool.not_eq_true] at hc
      split at hw
      · simp at hw
        subst hw
        refine ⟨by simp, ?_⟩
        intro x hx
        simp at hx
        subst hx
        exact hc
      · split at hw
        · rcases List.mem_cons.mp hw with rfl | hw
          · refine ⟨by simp, ?_⟩
            intro x hx
            simp at hx
            subst hx
            exact hc
          · exact ih w hw
        · split at hw
          · simp at hw
            subst hw
            refine ⟨by simp, ?_⟩
            intro x hx
            simp at hx
            subst hx
            exact hc
          · rename_i w2 ws2 hsplit
            rcases List.mem_cons.mp hw with rfl | hw
            · have h2 := ih w2 (by rw [hsplit]; exact List.mem_cons_self _ _)
              refine ⟨by simp, ?_⟩
              intro x hx
              rcases List.mem_cons.mp hx with rfl | hx
              · exact hc
              · exact h2.2 x hx
            · exact ih w (by rw [hsplit]; exact List.mem_cons_of_mem _ hw)

/-- Splitting recovers a clean word, both standalone and before a space
separator. -/
theorem split_whitespace_word (w : Input) (hne : w ≠ [])
    (hcl : ∀ c ∈ w, c.isWhitespace = false) :
    split_whitespace w = [w] ∧
    ∀ t : Input, split_whitespace (w ++ ' ' :: t) = w :: split_whitespace t := by
  induction w with
  | nil => exact absurd rfl hne
  | cons c w ih =>
    have hc : c.isWhitespace = false := hcl c (List.mem_cons_self c w)
    cases w with
    | nil =>
      constructor
      · simp [split_whitespace, hc]
      · intro t
        simp [split_whitespace, hc]
    | cons d w2 =>
      have hd : d.isWhitespace = false :=
        hcl d (List.mem_cons_of_mem c (List.mem_cons_self d w2))
      have ih2 := ih (by simp)
        (fun x hx => hcl x (List.mem_cons_of_mem c hx))
      constructor
      · rw [split_whitespace.eq_def]
        simp [hc, hd, ih2.1]
      · intro t
        have hstep := ih2.2 t
        simp only [List.cons_append] at hstep
        simp only [List.cons_append]
        rw [split_whitespace.eq_def]
        simp [hc, hd, hstep]

/-- Splitting a whitespace-joined list of clean words recovers the list. -/
theorem split_whitespace_join (ws : List Input)
    (h : ∀ w ∈ ws, w ≠ [] ∧ ∀ c ∈ w, c.isWhitespace = false) :
    split_whitespace (join_words ws) = ws := by
  induction ws with
  | nil => rfl
  | cons w ws ih =>
    obtain ⟨hne, hcl⟩ := h w (List.mem_cons_self w ws)
    cases ws with
    | nil =>
      simp only [join_words]
      exact (split_whitespace_word w hne hcl).1
    | cons w2 ws2 =>
      simp only [join_words]
      rw [(split_whitespace_word w hne hcl).2 (join_words (w2 :: ws2))]
      rw [ih (fun x hx => h x (List.mem_cons_of_mem w hx))]

/-- Mapping a space-fixing character function commutes with joining. -/
theorem map_join_words (f : Char → Char) (hf : f ' ' = ' ') :
    ∀ ws : List Input,
      (join_words ws).map f = join_words (ws.map (List.map f)) := by
  intro ws
  induction ws with
  | nil => rfl
  | cons w ws ih =>
    cases ws with
    | nil => rfl
    | cons w2 ws2 =>
      simp only [join_words, List.map_append, List.map_cons, List.map]
      rw [hf, ih]
      rfl

/-- Cleanliness of the word list survives lowercasing. -/
theorem clean_map_to_lower {ws : List Input}
    (h : ∀ w ∈ ws, w ≠ [] ∧ ∀ c ∈ w, c.isWhitespace = false) :
    ∀ w ∈ ws.map (List.map to_lower),
      w ≠ [] ∧ ∀ c ∈ w, c.isWhitespace = false := by
  intro w hw
  rw [List.mem_map] at hw
  obtain ⟨w0, hw0, rfl⟩ := hw
  obtain ⟨hne, hcl⟩ := h w0 hw0
  refine ⟨by simpa using hne, ?_⟩
  intro c hc
  rw [List.mem_map] at hc
  obtain ⟨c0, hc0, rfl⟩ := hc
  rw [isWhitespace_to_lower]
  exact hcl c0 hc0

theorem map_map_to_lower (w : Input) :
    (w.map to_lower).map to_lower = w.map to_lower := by
  rw [List.map_map]
  exact List.map_congr_left (fun c _ => to_lower_idem c)

/-- C8: normalization is idempotent - collapsing whitespace runs to
single spaces and lowercasing a second time changes nothing. -/
theorem normalize_idempotent (s : Input) :
    normalize (normalize s) = normalize s := by
  unfold normalize
  rw [map_join_words to_lower rfl (split_whitespace s)]
  rw [split_whitespace_join ((split_whitespace s).map (List.map to_lower))
    (clean_map_to_lower (split_whitespace_clean s))]
  rw [map_join_words to_lower rfl ((split_whitespace s).map (List.map to_lower))]
  congr 1
  rw [List.map_map]
  exact List.map_congr_left (fun w _ => map_map_to_lower w)

end FplSpec
